import Mathlib

/-!
Verification of the openclaw tool/skill permission resolution engine.

Strings are modelled through their underlying character lists
(`String.data`), and the JavaScript string primitives used by the source
(`trim`, `toLowerCase`, `split`, `replace` with a character class) are
given explicit executable definitions over `List Char`.
-/

namespace OpenClaw

/-- Whitespace test used to model the JavaScript regex class `\s` and
the trimming performed by `String.prototype.trim` (ASCII fragment). -/
def jsWhitespace (c : Char) : Bool :=
  c == ' ' || c == '\t' || c == '\n' || c == '\r'

/-- Character-level lower-casing table for ASCII letters, modelling
`String.prototype.toLowerCase` on the ASCII range. -/
def lowerPairs : List (Char × Char) :=
  [('A', 'a'), ('B', 'b'), ('C', 'c'), ('D', 'd'), ('E', 'e'), ('F', 'f'),
   ('G', 'g'), ('H', 'h'), ('I', 'i'), ('J', 'j'), ('K', 'k'), ('L', 'l'),
   ('M', 'm'), ('N', 'n'), ('O', 'o'), ('P', 'p'), ('Q', 'q'), ('R', 'r'),
   ('S', 's'), ('T', 't'), ('U', 'u'), ('V', 'v'), ('W', 'w'), ('X', 'x'),
   ('Y', 'y'), ('Z', 'z')]

/-- Association-list lookup keyed by decidable equality. -/
def alookup {α β : Type} [DecidableEq α] (a : α) : List (α × β) → Option β
  | [] => none
  | (k, v) :: rest => if k = a then some v else alookup a rest

/-- Lower-case one character (identity outside `A`-`Z`). -/
def lowerChar (c : Char) : Char :=
  (alookup c lowerPairs).getD c

/-- Lower-case a character list. -/
def jsToLowerL (l : List Char) : List Char :=
  l.map lowerChar

/-- Drop leading and trailing whitespace, modelling `trim`. -/
def jsTrimL (l : List Char) : List Char :=
  (((l.dropWhile jsWhitespace).reverse.dropWhile jsWhitespace).reverse)

/-- String-level `trim`. -/
def jsTrim (s : String) : String :=
  String.mk (jsTrimL s.data)

/-- String-level `toLowerCase`. -/
def jsToLower (s : String) : String :=
  String.mk (jsToLowerL s.data)

/-- Normal form of a reference key: trimmed, then lower-cased, the
normalization applied by the Reference Resolver. -/
def normKey (s : String) : String :=
  jsToLower (jsTrim s)

section Sanitize

/-- Character class `[a-zA-Z0-9_+@.\-]` kept by the filename sanitizer
in `workspace.ts`; every other character is replaced. -/
def allowedFilenameChar (c : Char) : Bool :=
  ('a' ≤ c && c ≤ 'z') || ('A' ≤ c && c ≤ 'Z') || ('0' ≤ c && c ≤ '9') ||
    c == '_' || c == '+' || c == '@' || c == '.' || c == '-'

/-- Embedding of sanitizeForFilename from workspace.ts:
replace every character outside `[a-zA-Z0-9_+@.\-]` with an underscore. -/
def sanitizeForFilename (s : String) : String :=
  String.mk (s.data.map (fun c => if allowedFilenameChar c then c else '_'))

theorem allowedFilenameChar_underscore : allowedFilenameChar '_' = true := by
  decide

theorem sanitizeChar_fix (c : Char) :
    (if allowedFilenameChar (if allowedFilenameChar c then c else '_') then
        (if allowedFilenameChar c then c else '_') else '_') =
      (if allowedFilenameChar c then c else '_') := by
  by_cases h : allowedFilenameChar c
  · simp [h]
  · simp [h, allowedFilenameChar_underscore]

end Sanitize

/-- C10: sanitizeForFilename is idempotent, its output contains only
characters from the class `[A-Za-z0-9_+@.-]`, and position by position
every character outside that class is replaced by an underscore while
allowed characters are kept. -/
theorem sanitizeForFilename_spec (s : String) :
    sanitizeForFilename (sanitizeForFilename s) = sanitizeForFilename s ∧
    (∀ c ∈ (sanitizeForFilename s).data, allowedFilenameChar c = true) ∧
    ∀ i : Nat, (sanitizeForFilename s).data[i]? =
      (s.data[i]?).map (fun c => if allowedFilenameChar c then c else '_') := by
  refine ⟨?_, ?_, ?_⟩
  · show String.mk ((s.data.map _).map _) = _
    rw [List.map_map]
    refine congrArg String.mk (List.map_congr_left ?_)
    intro c _
    exact sanitizeChar_fix c
  · intro c hc
    simp only [sanitizeForFilename, List.mem_map] at hc
    obtain ⟨a, _, rfl⟩ := hc
    by_cases h : allowedFilenameChar a
    · simp [h]
    · simp [h, allowedFilenameChar_underscore]
  · intro i
    simp [sanitizeForFilename, List.getElem?_map]

section UserTier

/-- Skill scope enum from skills/types.ts. -/
inductive SkillScope
  | conversationOnly
  | readOnly
  | workspace
  | readWrite
  | full
  | custom
deriving DecidableEq, Repr, Fintype

/-- User tier enum from user-tier.ts. -/
inductive UserTier
  | admin
  | trusted
  | default
deriving DecidableEq, Repr, Fintype

/-- Embedding of SCOPE_ORDER from user-tier.ts: numeric ordering for
scope comparison, with custom treated as full. -/
def SCOPE_ORDER : SkillScope → Nat
  | .conversationOnly => 0
  | .readOnly => 1
  | .workspace => 2
  | .readWrite => 3
  | .full => 4
  | .custom => 4

/-- Embedding of isScopeWithinCeiling from user-tier.ts: a null ceiling
permits any scope, otherwise compare scope orders. -/
def isScopeWithinCeiling (scope : SkillScope) (ceiling : Option SkillScope) : Bool :=
  match ceiling with
  | none => true
  | some c => decide (SCOPE_ORDER scope ≤ SCOPE_ORDER c)

/-- Users block of an agent configuration (admin and trusted allowlists),
each list optional as in the TypeScript config type. -/
structure UsersConfig where
  admins : Option (List String) := none
  trusted : Option (List String) := none
deriving DecidableEq, Repr

/-- Fragment of AgentConfig consumed by resolveUserTier. -/
structure AgentConfig where
  users : Option UsersConfig := none
deriving DecidableEq, Repr

/-- Embedding of resolveUserTier from user-tier.ts. The JavaScript guard
rejects falsy channel or senderId, so both absent and empty-string
values yield no tier; otherwise the identity `{channel}_{senderId}` is
checked against the admin list, then the trusted list. -/
def resolveUserTier (agentConfig : Option AgentConfig)
    (channel senderId : Option String) : Option UserTier :=
  match channel, senderId with
  | some c, some s =>
    if c = "" || s = "" then none
    else
      let userId := c ++ "_" ++ s
      match agentConfig.bind (·.users) with
      | none => some .default
      | some users =>
        if userId ∈ users.admins.getD [] then some .admin
        else if userId ∈ users.trusted.getD [] then some .trusted
        else some .default
  | _, _ => none

/-- Admin allowlist of a configuration, empty when absent. -/
def adminsOf (cfg : Option AgentConfig) : List String :=
  match cfg.bind (·.users) with
  | none => []
  | some u => u.admins.getD []

/-- Trusted allowlist of a configuration, empty when absent. -/
def trustedOf (cfg : Option AgentConfig) : List String :=
  match cfg.bind (·.users) with
  | none => []
  | some u => u.trusted.getD []

end UserTier

/-- C4: the ceiling gate admits every scope against a null ceiling, and
against a non-null ceiling admits exactly the scopes whose order is at
most the ceiling's order, under the total ordering conversation-only <
read-only < workspace < read-write < full with custom ranked equal to
full; in particular full and custom are rejected under a read-write
ceiling and workspace is admitted under a workspace ceiling. -/
theorem isScopeWithinCeiling_spec :
    (∀ s : SkillScope, isScopeWithinCeiling s none = true) ∧
    (∀ s c : SkillScope,
      isScopeWithinCeiling s (some c) = true ↔ SCOPE_ORDER s ≤ SCOPE_ORDER c) ∧
    SCOPE_ORDER .conversationOnly < SCOPE_ORDER .readOnly ∧
    SCOPE_ORDER .readOnly < SCOPE_ORDER .workspace ∧
    SCOPE_ORDER .workspace < SCOPE_ORDER .readWrite ∧
    SCOPE_ORDER .readWrite < SCOPE_ORDER .full ∧
    SCOPE_ORDER .custom = SCOPE_ORDER .full ∧
    isScopeWithinCeiling .full (some .readWrite) = false ∧
    isScopeWithinCeiling .custom (some .readWrite) = false ∧
    isScopeWithinCeiling .workspace (some .workspace) = true := by
  refine ⟨fun s => rfl, fun s c => ?_, ?_, ?_, ?_, ?_, ?_, ?_, ?_, ?_⟩ <;>
    first
      | decide
      | simp [isScopeWithinCeiling]

/-- C5 counterexample: with a present but empty channel string the
resolver returns no tier even though neither input is absent, refuting
the claim that no tier is returned exactly when channel or senderId is
absent. -/
theorem resolveUserTier_absent_iff_cex :
    ¬ (∀ (cfg : Option AgentConfig) (ch sid : Option String),
        resolveUserTier cfg ch sid = none ↔ (ch = none ∨ sid = none)) := by
  intro h
  have h2 := (h none (some ("")) (some ("123"))).mp rfl
  simp at h2

/-- C5 (amended): the resolver returns no tier exactly when channel or
senderId is absent or the empty string; otherwise it forms the identity
`{channel}_{senderId}` and returns admin if that exact string is in the
admin allowlist, else trusted if it is in the trusted allowlist, else
default, so an identity present in both lists resolves to admin. -/
theorem resolveUserTier_spec (cfg : Option AgentConfig) (ch sid : Option String) :
    (resolveUserTier cfg ch sid = none ↔
      ch = none ∨ ch = some ("") ∨ sid = none ∨ sid = some ("")) ∧
    (∀ c s, ch = some c → sid = some s → c ≠ "" → s ≠ "" →
      resolveUserTier cfg ch sid =
        some (if (c ++ "_" ++ s) ∈ adminsOf cfg then .admin
          else if (c ++ "_" ++ s) ∈ trustedOf cfg then .trusted
          else .default)) := by
  constructor
  · match ch, sid with
    | none, none => simp [resolveUserTier]
    | none, some s => simp [resolveUserTier]
    | some c, none => simp [resolveUserTier]
    | some c, some s =>
      simp only [resolveUserTier]
      by_cases hc : c = ""
      · simp [hc]
      · by_cases hs : s = ""
        · simp [hc, hs]
        · cases h : cfg.bind (·.users) with
          | none => simp [h, hc, hs]
          | some u =>
            simp only [h, hc, hs]
            split_ifs <;> simp_all
  · intro c s hch hsid hc hs
    subst hch
    subst hsid
    cases h : cfg.bind (·.users) with
    | none => simp [resolveUserTier, adminsOf, trustedOf, h, hc, hs]
    | some u =>
      simp only [resolveUserTier, adminsOf, trustedOf, h, hc, hs]
      split_ifs <;> simp_all

/-- Concrete configuration for the C5 witness: telegram_123 appears in
both the admin and the trusted allowlist. -/
def dualListConfig : AgentConfig :=
  { users := some { admins := some ["telegram_123"], trusted := some ["telegram_123"] } }

/-- Witness for C5: an identity present in both allowlists resolves to
admin. -/
theorem resolveUserTier_spec_witness :
    resolveUserTier (some dualListConfig) (some ("telegram")) (some ("123")) = some .admin := by
  have h := (resolveUserTier_spec (some dualListConfig) (some ("telegram")) (some ("123"))).2
      ("telegram") ("123") rfl rfl (by decide) (by decide)
  rw [h]
  decide

section Expansion

/-- Modelled from the spec: the Tool Catalog of tool-policy.ts (the
implementation file is absent from the source tree; only its tests
survive), a static table of alias foldings and named groups, treated as
injected read-only configuration as §9 of the spec directs. -/
structure Catalog where
  aliases : List (String × String)
  groups : List (String × List String)

/-- Modelled from the spec: normalization of one tool reference in
expandToolGroups — trim, lower-case, and fold known aliases to their
canonical form. -/
def normalizeRef (cat : Catalog) (r : String) : String :=
  (alookup (normKey r) cat.aliases).getD (normKey r)

/-- Test for a group reference of the form `group:name`. -/
def isGroupRef (s : String) : Bool :=
  List.isPrefixOf ("group:".data) s.data

/-- Insert a name into a result list unless already present, modelling
insertion into a JavaScript Set (first-occurrence order). -/
def insertUnique (acc : List String) (n : String) : List String :=
  if n ∈ acc then acc else acc ++ [n]

/-- Count of catalog group names not yet visited, the termination
measure of cycle-safe expansion. -/
def unvisitedCount (groups : List (String × List String)) (visited : List String) : Nat :=
  ((groups.map Prod.fst).filter (fun k => decide (k ∉ visited))).length

theorem alookup_mem {α β : Type} [DecidableEq α] {a : α} {b : β} :
    ∀ {l : List (α × β)}, alookup a l = some b → (a, b) ∈ l
  | [], h => by simp [alookup] at h
  | (k, v) :: rest, h => by
    rw [alookup] at h
    split_ifs at h with hk
    · injection h with hb
      subst hk
      subst hb
      exact List.mem_cons_self _ _
    · exact List.mem_cons_of_mem _ (alookup_mem h)

theorem filter_notMem_cons_length_lt {keys visited : List String} {n : String}
    (hk : n ∈ keys) (hv : n ∉ visited) :
    (keys.filter (fun k => decide (k ∉ n :: visited))).length <
      (keys.filter (fun k => decide (k ∉ visited))).length := by
  induction keys with
  | nil => cases hk
  | cons k ks ih =>
    have hmono : (ks.filter (fun k => decide (k ∉ n :: visited))).length ≤
        (ks.filter (fun k => decide (k ∉ visited))).length := by
      refine List.Sublist.length_le (List.monotone_filter_right _ ?_)
      intro a ha
      simp only [decide_eq_true_eq, List.mem_cons, not_or] at ha ⊢
      exact ha.2
    by_cases hkn : k = n
    · subst hkn
      have h1 : (fun x => decide (x ∉ k :: visited)) k = false := by simp
      have h2 : (fun x => decide (x ∉ visited)) k = true := by simpa using hv
      rw [List.filter_cons_of_neg (by simp [h1]), List.filter_cons_of_pos (by simp [h2])]
      simpa using Nat.lt_succ_of_le hmono
    · have hn : n ∈ ks := by
        rcases List.mem_cons.mp hk with h | h
        · exact absurd h.symm hkn
        · exact h
      by_cases hkv : k ∈ visited
      · have h1 : (fun x => decide (x ∉ n :: visited)) k = false := by simp [hkv]
        have h2 : (fun x => decide (x ∉ visited)) k = false := by simp [hkv]
        rw [List.filter_cons_of_neg (by simp [hkv]), List.filter_cons_of_neg (by simp [hkv])]
        exact ih hn
      · rw [List.filter_cons_of_pos (by simp [hkn, hkv]),
          List.filter_cons_of_pos (by simpa using hkv)]
        simpa using Nat.succ_lt_succ (ih hn)

theorem unvisitedCount_cons_lt {cat : Catalog} {visited : List String}
    {n : String} {members : List String}
    (hg : alookup n cat.groups = some members) (hv : n ∉ visited) :
    unvisitedCount cat.groups (n :: visited) < unvisitedCount cat.groups visited := by
  have hk : n ∈ cat.groups.map Prod.fst :=
    List.mem_map.mpr ⟨(n, members), alookup_mem hg, rfl⟩
  exact filter_notMem_cons_length_lt hk hv

/-- Modelled from the spec: the worklist core of expandToolGroups from
tool-policy.ts. References are processed left to right into a
deduplicated accumulator; a group reference found in the catalog is
expanded in place with its name marked visited for the rest of this
call, a revisited group contributes nothing further, an unknown
reference passes through as its normalized literal. Defined by
well-founded recursion on (unvisited groups, worklist length), so
expansion terminates on every catalog, cyclic ones included. -/
def expandGo (cat : Catalog) (visited acc work : List String) : List String :=
  match work with
  | [] => acc
  | r :: rest =>
    if isGroupRef (normalizeRef cat r) then
      if hv : normalizeRef cat r ∈ visited then
        expandGo cat visited acc rest
      else
        match hg : alookup (normalizeRef cat r) cat.groups with
        | some members =>
          expandGo cat (normalizeRef cat r :: visited) acc (members ++ rest)
        | none => expandGo cat visited (insertUnique acc (normalizeRef cat r)) rest
    else
      expandGo cat visited (insertUnique acc (normalizeRef cat r)) rest
termination_by (unvisitedCount cat.groups visited, work.length)
decreasing_by
  · exact Prod.Lex.right _ (by simp)
  · exact Prod.Lex.left _ _ (unvisitedCount_cons_lt hg hv)
  · exact Prod.Lex.right _ (by simp)
  · exact Prod.Lex.right _ (by simp)

/-- Modelled from the spec: expandToolGroups expands a reference list
into a deduplicated list of canonical tool names. -/
def expandToolGroups (cat : Catalog) (refs : List String) : List String :=
  expandGo cat [] [] refs

/-- Fuel-bounded structural twin of expandGo, used to evaluate the
well-founded definition on concrete inputs inside the kernel. -/
def expandGoF : Nat → Catalog → List String → List String → List String → Option (List String)
  | 0, _, _, _, _ => none
  | fuel + 1, cat, visited, acc, work =>
    match work with
    | [] => some acc
    | r :: rest =>
      if isGroupRef (normalizeRef cat r) then
        if normalizeRef cat r ∈ visited then expandGoF fuel cat visited acc rest
        else
          match alookup (normalizeRef cat r) cat.groups with
          | some members =>
            expandGoF fuel cat (normalizeRef cat r :: visited) acc (members ++ rest)
          | none => expandGoF fuel cat visited (insertUnique acc (normalizeRef cat r)) rest
      else expandGoF fuel cat visited (insertUnique acc (normalizeRef cat r)) rest

theorem expandGo_eq_ofF : ∀ (fuel : Nat) (cat : Catalog) (visited acc work res : _),
    expandGoF fuel cat visited acc work = some res → expandGo cat visited acc work = res := by
  intro fuel
  induction fuel with
  | zero =>
    intro _ _ _ _ _ h
    simp [expandGoF] at h
  | succ fuel ih =>
    intro cat visited acc work res h
    cases work with
    | nil =>
      simp only [expandGoF, Option.some.injEq] at h
      subst h
      rw [expandGo]
    | cons r rest =>
      rw [expandGo]
      simp only [expandGoF] at h
      by_cases hG : isGroupRef (normalizeRef cat r)
      · rw [if_pos hG] at h
        rw [if_pos hG]
        by_cases hv : normalizeRef cat r ∈ visited
        · rw [if_pos hv] at h
          rw [dif_pos hv]
          exact ih _ _ _ _ _ h
        · rw [if_neg hv] at h
          rw [dif_neg hv]
          split
          · next members heq =>
            rw [heq] at h
            exact ih _ _ _ _ _ h
          · next heq =>
            rw [heq] at h
            exact ih _ _ _ _ _ h
      · rw [if_neg hG] at h
        rw [if_neg hG]
        exact ih _ _ _ _ _ h

theorem expandToolGroups_eq_ofF (fuel : Nat) {cat : Catalog} {refs res : List String}
    (h : expandGoF fuel cat [] [] refs = some res) :
    expandToolGroups cat refs = res :=
  expandGo_eq_ofF fuel cat [] [] refs res h

theorem expandGo_nil (cat : Catalog) (visited acc : List String) :
    expandGo cat visited acc [] = acc := by
  rw [expandGo]

theorem expandGo_cons_visited {cat : Catalog} {r : String} {visited : List String}
    (acc rest : List String) (hG : isGroupRef (normalizeRef cat r) = true)
    (hv : normalizeRef cat r ∈ visited) :
    expandGo cat visited acc (r :: rest) = expandGo cat visited acc rest := by
  rw [expandGo, if_pos hG, dif_pos hv]

theorem expandGo_cons_known {cat : Catalog} {r : String}
    {visited members : List String}
    (acc rest : List String) (hG : isGroupRef (normalizeRef cat r) = true)
    (hv : normalizeRef cat r ∉ visited)
    (hg : alookup (normalizeRef cat r) cat.groups = some members) :
    expandGo cat visited acc (r :: rest) =
      expandGo cat (normalizeRef cat r :: visited) acc (members ++ rest) := by
  rw [expandGo, if_pos hG, dif_neg hv]
  split
  · next ms heq =>
    rw [hg] at heq
    injection heq with h
    subst h
    rfl
  · next heq =>
    rw [hg] at heq
    cases heq

theorem expandGo_cons_unknown {cat : Catalog} {r : String} {visited : List String}
    (acc rest : List String) (hG : isGroupRef (normalizeRef cat r) = true)
    (hv : normalizeRef cat r ∉ visited)
    (hg : alookup (normalizeRef cat r) cat.groups = none) :
    expandGo cat visited acc (r :: rest) =
      expandGo cat visited (insertUnique acc (normalizeRef cat r)) rest := by
  rw [expandGo, if_pos hG, dif_neg hv]
  split
  · next ms heq =>
    rw [hg] at heq
    cases heq
  · next heq => rfl

theorem expandGo_cons_plain {cat : Catalog} {r : String} (visited acc rest : List String)
    (hG : ¬ isGroupRef (normalizeRef cat r) = true) :
    expandGo cat visited acc (r :: rest) =
      expandGo cat visited (insertUnique acc (normalizeRef cat r)) rest := by
  rw [expandGo, if_neg hG]

end Expansion

/-- C7: expansion is cycle-safe — a group name already visited within
one expansion call contributes no further members on a second
encounter: the revisited reference is simply dropped from the worklist.
Termination on every input list and every group table, including
self-referential and mutually-referential cycles, holds by construction:
expandGo is defined by well-founded recursion on the count of unvisited
catalog groups paired with the worklist length. -/
theorem expandGo_revisited_group (cat : Catalog) (visited acc rest : List String)
    (r : String) (hg : isGroupRef (normalizeRef cat r) = true)
    (hv : normalizeRef cat r ∈ visited) :
    expandGo cat visited acc (r :: rest) = expandGo cat visited acc rest := by
  rw [expandGo]
  simp [hg, hv]

/-- Catalog with a self-referential group and a mutually-referential
pair of groups, exercising cycle tolerance. -/
def cyclicCatalog : Catalog :=
  { aliases := [],
    groups := [("group:a", ["x", "group:a"]),
               ("group:b", ["group:c", "y"]),
               ("group:c", ["group:b", "z"])] }

/-- Witness for C7: on a catalog whose group refers to itself, the
second encounter of the group contributes nothing, and whole-list
expansion of the cyclic groups terminates with the plain members. -/
theorem expandGo_revisited_group_witness :
    expandGo cyclicCatalog ["group:a"] ["x"] ["group:a", "q"] =
      expandGo cyclicCatalog ["group:a"] ["x"] ["q"] ∧
    expandToolGroups cyclicCatalog ["group:a"] = ["x"] ∧
    expandToolGroups cyclicCatalog ["group:b"] = ["z", "y"] := by
  refine ⟨expandGo_revisited_group cyclicCatalog ["group:a"] ["x"] ["q"] "group:a"
    (by decide) (by decide), ?_, ?_⟩
  · exact expandToolGroups_eq_ofF 8 (by decide)
  · exact expandToolGroups_eq_ofF 8 (by decide)

section Idempotence

theorem jsTrimL_eq (l : List Char) :
    jsTrimL l = (l.dropWhile jsWhitespace).rdropWhile jsWhitespace := rfl

theorem trimmed_head_drop (l : List Char) :
    ((l.dropWhile jsWhitespace).rdropWhile jsWhitespace).dropWhile jsWhitespace =
      (l.dropWhile jsWhitespace).rdropWhile jsWhitespace := by
  rw [List.dropWhile_eq_self_iff]
  intro hl
  have hp : (l.dropWhile jsWhitespace).rdropWhile jsWhitespace <+: l.dropWhile jsWhitespace :=
    List.rdropWhile_prefix jsWhitespace (l.dropWhile jsWhitespace)
  have hlen : 0 < (l.dropWhile jsWhitespace).length := Nat.lt_of_lt_of_le hl hp.length_le
  have hg : ((l.dropWhile jsWhitespace).rdropWhile jsWhitespace).get ⟨0, hl⟩ =
      (l.dropWhile jsWhitespace).get ⟨0, hlen⟩ := by
    simpa using List.IsPrefix.getElem hp hl
  rw [hg]
  exact List.dropWhile_get_zero_not jsWhitespace l hlen

theorem jsTrimL_idem (l : List Char) : jsTrimL (jsTrimL l) = jsTrimL l := by
  rw [jsTrimL_eq l, jsTrimL_eq, trimmed_head_drop l]
  exact List.rdropWhile_idempotent jsWhitespace _

theorem lowerPairs_snd_not_key : ∀ p ∈ lowerPairs, alookup p.2 lowerPairs = none := by
  decide

theorem lowerPairs_not_ws : ∀ p ∈ lowerPairs,
    jsWhitespace p.1 = false ∧ jsWhitespace p.2 = false := by
  decide

theorem lowerChar_fix (c : Char) : lowerChar (lowerChar c) = lowerChar c := by
  unfold lowerChar
  cases h : alookup c lowerPairs with
  | none => simp [h]
  | some l =>
    have h2 := lowerPairs_snd_not_key (c, l) (alookup_mem h)
    simp [h, h2]

theorem jsWhitespace_lowerChar (c : Char) : jsWhitespace (lowerChar c) = jsWhitespace c := by
  unfold lowerChar
  cases h : alookup c lowerPairs with
  | none => simp [h]
  | some l =>
    have h2 := lowerPairs_not_ws (c, l) (alookup_mem h)
    simp [h, h2.1, h2.2]

theorem jsToLowerL_idem (l : List Char) : jsToLowerL (jsToLowerL l) = jsToLowerL l := by
  unfold jsToLowerL
  rw [List.map_map]
  exact List.map_congr_left fun c _ => lowerChar_fix c

theorem dropWhile_ws_map_lower (l : List Char) :
    (l.map lowerChar).dropWhile jsWhitespace = (l.dropWhile jsWhitespace).map lowerChar := by
  rw [List.dropWhile_map lowerChar jsWhitespace l]
  have hf : jsWhitespace ∘ lowerChar = jsWhitespace := by
    funext c
    exact jsWhitespace_lowerChar c
  rw [hf]

theorem jsTrimL_map_lower (l : List Char) :
    jsTrimL (l.map lowerChar) = (jsTrimL l).map lowerChar := by
  unfold jsTrimL
  rw [dropWhile_ws_map_lower, ← List.map_reverse, dropWhile_ws_map_lower, ← List.map_reverse]

theorem normKey_idem (s : String) : normKey (normKey s) = normKey s := by
  show String.mk (jsToLowerL (jsTrimL (jsToLowerL (jsTrimL s.data)))) =
    String.mk (jsToLowerL (jsTrimL s.data))
  refine congrArg String.mk ?_
  show jsToLowerL (jsTrimL ((jsTrimL s.data).map lowerChar)) = jsToLowerL (jsTrimL s.data)
  rw [jsTrimL_map_lower, jsTrimL_idem]
  exact jsToLowerL_idem _

/-- Sanity of a catalog's alias table: every alias target is already in
normal form and is not itself an alias key, which holds of the modelled
catalog and of any alias table folding variants to canonical names. -/
def SaneAliases (cat : Catalog) : Prop :=
  ∀ p ∈ cat.aliases, normKey p.2 = p.2 ∧ alookup p.2 cat.aliases = none

instance (cat : Catalog) : Decidable (SaneAliases cat) := by
  unfold SaneAliases
  infer_instance

theorem normalizeRef_fix {cat : Catalog} (hs : SaneAliases cat) (r : String) :
    normalizeRef cat (normalizeRef cat r) = normalizeRef cat r := by
  unfold normalizeRef
  cases h : alookup (normKey r) cat.aliases with
  | none =>
    simp only [h, Option.getD_none]
    rw [normKey_idem, h]
    rfl
  | some c =>
    simp only [h, Option.getD_some]
    obtain ⟨h1, h2⟩ := hs _ (alookup_mem h)
    rw [h1, h2]
    rfl

/-- Fully-normalized references: fixed under normalization and, when a
group reference, unknown to the catalog. All names emitted by the
expander have this shape. -/
def GoodElem (cat : Catalog) (x : String) : Prop :=
  normalizeRef cat x = x ∧ (isGroupRef x = true → alookup x cat.groups = none)

theorem mem_insertUnique {acc : List String} {n x : String} :
    x ∈ insertUnique acc n ↔ x ∈ acc ∨ x = n := by
  unfold insertUnique
  split_ifs with h
  · constructor
    · exact fun hx => Or.inl hx
    · rintro (hx | rfl)
      · exact hx
      · exact h
  · simp

theorem insertUnique_nodup {acc : List String} (h : acc.Nodup) (n : String) :
    (insertUnique acc n).Nodup := by
  unfold insertUnique
  split_ifs with hn
  · exact h
  · simpa [List.nodup_append, hn] using h

theorem expandGo_good {cat : Catalog} (hs : SaneAliases cat) :
    ∀ (visited acc work : List String), (∀ x ∈ acc, GoodElem cat x) →
      ∀ x ∈ expandGo cat visited acc work, GoodElem cat x := by
  intro visited acc work
  induction visited, acc, work using expandGo.induct cat with
  | case1 visited acc =>
    intro hacc
    rw [expandGo_nil]
    exact hacc
  | case2 visited acc r rest hG hv ih =>
    intro hacc
    rw [expandGo_cons_visited acc rest hG hv]
    exact ih hacc
  | case3 visited acc r rest hG hv members hg ih =>
    intro hacc
    rw [expandGo_cons_known acc rest hG hv hg]
    exact ih hacc
  | case4 visited acc r rest hG hv hg ih =>
    intro hacc
    rw [expandGo_cons_unknown acc rest hG hv hg]
    refine ih ?_
    intro y hy
    rcases mem_insertUnique.mp hy with hy | rfl
    · exact hacc y hy
    · exact ⟨normalizeRef_fix hs r, fun _ => hg⟩
  | case5 visited acc r rest hG ih =>
    intro hacc
    rw [expandGo_cons_plain visited acc rest hG]
    refine ih ?_
    intro y hy
    rcases mem_insertUnique.mp hy with hy | rfl
    · exact hacc y hy
    · exact ⟨normalizeRef_fix hs r, fun hgr => absurd hgr hG⟩

theorem expandGo_nodup (cat : Catalog) :
    ∀ (visited acc work : List String), acc.Nodup →
      (expandGo cat visited acc work).Nodup := by
  intro visited acc work
  induction visited, acc, work using expandGo.induct cat with
  | case1 visited acc =>
    intro hacc
    rw [expandGo_nil]
    exact hacc
  | case2 visited acc r rest hG hv ih =>
    intro hacc
    rw [expandGo_cons_visited acc rest hG hv]
    exact ih hacc
  | case3 visited acc r rest hG hv members hg ih =>
    intro hacc
    rw [expandGo_cons_known acc rest hG hv hg]
    exact ih hacc
  | case4 visited acc r rest hG hv hg ih =>
    intro hacc
    rw [expandGo_cons_unknown acc rest hG hv hg]
    exact ih (insertUnique_nodup hacc _)
  | case5 visited acc r rest hG ih =>
    intro hacc
    rw [expandGo_cons_plain visited acc rest hG]
    exact ih (insertUnique_nodup hacc _)

theorem expandGo_all_good (cat : Catalog) :
    ∀ (work visited acc : List String),
      (∀ x ∈ work, GoodElem cat x) → (∀ x ∈ work, x ∉ visited) →
      expandGo cat visited acc work = work.foldl insertUnique acc := by
  intro work
  induction work with
  | nil =>
    intro visited acc _ _
    rw [expandGo_nil]
    rfl
  | cons r rest ih =>
    intro visited acc hw hv
    have hr : GoodElem cat r := hw r (by simp)
    have hrv : r ∉ visited := hv r (by simp)
    have htail : ∀ x ∈ rest, GoodElem cat x := fun x hx => hw x (by simp [hx])
    have hvtail : ∀ x ∈ rest, x ∉ visited := fun x hx => hv x (by simp [hx])
    by_cases hG : isGroupRef r = true
    · have hG2 : isGroupRef (normalizeRef cat r) = true := by rw [hr.1]; exact hG
      have hv2 : normalizeRef cat r ∉ visited := by rw [hr.1]; exact hrv
      have hg2 : alookup (normalizeRef cat r) cat.groups = none := by
        rw [hr.1]; exact hr.2 hG
      rw [expandGo_cons_unknown acc rest hG2 hv2 hg2, hr.1, List.foldl_cons]
      exact ih visited (insertUnique acc r) htail hvtail
    · have hG2 : ¬ isGroupRef (normalizeRef cat r) = true := by rw [hr.1]; exact hG
      rw [expandGo_cons_plain visited acc rest hG2, hr.1, List.foldl_cons]
      exact ih visited (insertUnique acc r) htail hvtail

theorem foldl_insertUnique_of_nodup :
    ∀ (work acc : List String), work.Nodup → (∀ x ∈ work, x ∉ acc) →
      work.foldl insertUnique acc = acc ++ work := by
  intro work
  induction work with
  | nil =>
    intro acc _ _
    simp
  | cons r rest ih =>
    intro acc hnd hdisj
    have hra : r ∉ acc := hdisj r (by simp)
    have h1 : insertUnique acc r = acc ++ [r] := by
      unfold insertUnique
      rw [if_neg hra]
    rw [List.foldl_cons, h1, ih (acc ++ [r]) (List.Nodup.of_cons hnd) ?_]
    · simp
    · intro x hx
      simp only [List.mem_append, List.mem_singleton, not_or]
      refine ⟨hdisj x (by simp [hx]), ?_⟩
      intro hxr
      subst hxr
      exact (List.nodup_cons.mp hnd).1 hx

end Idempotence

/-- C8: reference expansion is idempotent for every catalog whose alias
targets are themselves normal (in particular the modelled default
catalog): re-expanding the canonical name list produced by
expandToolGroups yields that list back, since unknown names pass
through as their normalized literal and canonical outputs are already
normalized. -/
theorem expandToolGroups_idem (cat : Catalog) (hs : SaneAliases cat) (refs : List String) :
    expandToolGroups cat (expandToolGroups cat refs) = expandToolGroups cat refs := by
  have hgood : ∀ x ∈ expandToolGroups cat refs, GoodElem cat x :=
    expandGo_good hs [] [] refs (by simp)
  have hnodup : (expandToolGroups cat refs).Nodup :=
    expandGo_nodup cat [] [] refs (by simp)
  rw [expandToolGroups, expandGo_all_good cat (expandToolGroups cat refs) [] [] hgood
    (by simp), foldl_insertUnique_of_nodup _ [] hnodup (by simp)]
  simp

/-- Modelled from the spec: the default Tool Catalog, with the alias
foldings and group contents pinned by tool-policy.test.ts (bash folds
to exec, apply-patch folds to apply_patch, group:fs is read, write,
edit, apply_patch, group:web is web_search, web_fetch, group:runtime
contains exec and process, and group:moltbot contains browser, message
and session_status). -/
def defaultCatalog : Catalog :=
  { aliases := [("bash", "exec"), ("apply-patch", "apply_patch")],
    groups :=
      [("group:fs", ["read", "write", "edit", "apply_patch"]),
       ("group:web", ["web_search", "web_fetch"]),
       ("group:runtime", ["exec", "process"]),
       ("group:memory", ["memory_search", "memory_get"]),
       ("group:moltbot", ["browser", "message", "session_status"])] }

/-- Witness for C8: idempotence holds at the modelled default catalog on
a reference list mixing groups, aliases and unknown names. -/
theorem expandToolGroups_idem_witness :
    SaneAliases defaultCatalog ∧
    expandToolGroups defaultCatalog
        (expandToolGroups defaultCatalog ["group:fs", "BASH", "mystery-tool"]) =
      expandToolGroups defaultCatalog ["group:fs", "BASH", "mystery-tool"] := by
  refine ⟨?_, ?_⟩
  · decide
  · exact expandToolGroups_idem defaultCatalog (by decide) ["group:fs", "BASH", "mystery-tool"]

section SkillPolicy

/-- Delegation enum of SkillPermissions from skills/types.ts. -/
inductive Delegation
  | opus
  | none
  | any
deriving DecidableEq, Repr, Fintype

/-- External-access enum of SkillPermissions from skills/types.ts. -/
inductive External
  | none
  | read
  | full
deriving DecidableEq, Repr, Fintype

/-- Tools block of SkillPermissions from skills/types.ts. -/
structure SkillTools where
  allow : Option (List String) := Option.none
  deny : Option (List String) := Option.none
deriving DecidableEq, Repr

/-- SkillPermissions from skills/types.ts. -/
structure SkillPermissions where
  scope : SkillScope
  tools : Option SkillTools := Option.none
  delegation : Delegation
  external : External
deriving DecidableEq, Repr

/-- ToolPolicy: optional allow and deny reference lists; an absent field
means no restriction or no denials from this layer. -/
structure ToolPolicy where
  allow : Option (List String) := Option.none
  deny : Option (List String) := Option.none
deriving DecidableEq, Repr

/-- Modelled from the spec: SKILL_SCOPE_TOOL_GROUPS of tool-policy.ts,
the scope-to-default-groups table, with contents pinned exactly by
tool-policy.test.ts; none (null) for full and custom. -/
def SKILL_SCOPE_TOOL_GROUPS : SkillScope → Option (List String)
  | .conversationOnly => some []
  | .readOnly => some ["group:memory", "group:web"]
  | .workspace => some ["group:fs", "group:web", "image"]
  | .readWrite => some ["group:fs", "group:memory", "group:web", "image"]
  | .full => Option.none
  | .custom => Option.none

/-- Modelled from the spec: resolveSkillToolPolicy of tool-policy.ts
(spec §4.3). A full or custom scope without an explicit allow override
imposes no allow restriction — only a deny pass-through when a deny is
present; otherwise the base allow is the override or the scope
defaults, with sessions_spawn appended unless delegation is none,
skill_memory_write always appended, and deny passed through. -/
def resolveSkillToolPolicy (p : SkillPermissions) : Option ToolPolicy :=
  let override := p.tools.bind (·.allow)
  if (p.scope = .full ∨ p.scope = .custom) ∧ override = Option.none then
    match p.tools.bind (·.deny) with
    | some d => some { allow := Option.none, deny := some d }
    | none => Option.none
  else
    some
      { allow := some (override.getD ((SKILL_SCOPE_TOOL_GROUPS p.scope).getD []) ++
          (if p.delegation ≠ Delegation.none then ["sessions_spawn"] else []) ++
          ["skill_memory_write"]),
        deny := p.tools.bind (·.deny) }

end SkillPolicy

/-- C2: for a bounded scope, or for full/custom with an explicit allow
override, the resolved policy's allow equals the override if present
(else the scope's default group list) with sessions_spawn appended iff
delegation is not none and skill_memory_write always appended; deny is
passed through unchanged and omitted when absent. -/
theorem resolveSkillToolPolicy_bounded (p : SkillPermissions)
    (h : (p.scope ≠ .full ∧ p.scope ≠ .custom) ∨ p.tools.bind (·.allow) ≠ Option.none) :
    resolveSkillToolPolicy p =
      some (ToolPolicy.mk
        (some ((p.tools.bind (·.allow)).getD
            ((SKILL_SCOPE_TOOL_GROUPS p.scope).getD []) ++
          (if p.delegation ≠ Delegation.none then ["sessions_spawn"] else []) ++
          ["skill_memory_write"]))
        (p.tools.bind (·.deny))) := by
  have hC : ¬ ((p.scope = .full ∨ p.scope = .custom) ∧
      p.tools.bind (·.allow) = Option.none) := by
    rintro ⟨hd, hov⟩
    rcases h with ⟨h1, h2⟩ | h2
    · rcases hd with hd | hd
      · exact h1 hd
      · exact h2 hd
    · exact h2 hov
  simp only [resolveSkillToolPolicy]
  rw [if_neg hC]

/-- Witness for C2: the spec's scenario 1 — a conversation-only skill
with delegation none resolves to allow = [skill_memory_write] alone,
with no sessions_spawn and no deny. -/
theorem resolveSkillToolPolicy_bounded_witness :
    resolveSkillToolPolicy
        { scope := .conversationOnly, tools := Option.none,
          delegation := .none, external := .none } =
      some { allow := some ["skill_memory_write"], deny := Option.none } := by
  have h := resolveSkillToolPolicy_bounded
      { scope := .conversationOnly, tools := Option.none,
        delegation := .none, external := .none }
      (Or.inl (by decide))
  rw [h]
  decide

/-- C3: a full or custom scope with no allow override restricts
nothing: with a deny list present the resolver returns a deny-only
policy (no allow field and no delegation-driven additions), and with no
deny it returns undefined. -/
theorem resolveSkillToolPolicy_open (p : SkillPermissions)
    (hsc : p.scope = .full ∨ p.scope = .custom)
    (hov : p.tools.bind (·.allow) = Option.none) :
    resolveSkillToolPolicy p =
      match p.tools.bind (·.deny) with
      | some d => some { allow := Option.none, deny := some d }
      | none => Option.none := by
  simp only [resolveSkillToolPolicy]
  rw [if_pos ⟨hsc, hov⟩]

/-- Witness for C3: the spec's scenarios 2 and 3 — a full-scope skill
with an explicit deny resolves to that deny alone, and with no tools
block resolves to no restriction at all. -/
theorem resolveSkillToolPolicy_open_witness :
    resolveSkillToolPolicy
        { scope := .full,
          tools := some { allow := Option.none, deny := some ["exec", "deploy"] },
          delegation := .opus, external := .none } =
      some { allow := Option.none, deny := some ["exec", "deploy"] } ∧
    resolveSkillToolPolicy
        { scope := .full, tools := Option.none, delegation := .opus, external := .none } =
      Option.none := by
  constructor
  · have h := resolveSkillToolPolicy_open
        { scope := .full,
          tools := some { allow := Option.none, deny := some ["exec", "deploy"] },
          delegation := .opus, external := .none }
        (Or.inl rfl) (by decide)
    rw [h]
    decide
  · have h := resolveSkillToolPolicy_open
        { scope := .full, tools := Option.none, delegation := .opus, external := .none }
        (Or.inl rfl) (by decide)
    rw [h]
    decide

section Composer

/-- Modelled from the spec: intersectToolPolicies of tool-policy.ts
(spec §4.5). Undefined layers are dropped; each defined allow list is
expanded through the Reference Resolver and the composed allow is the
intersection of the expanded sets, omitted when no layer has an allow;
the composed deny is the deduplicated union of the literal deny lists,
omitted when no layer has a deny. -/
def intersectToolPolicies (cat : Catalog) (policies : List (Option ToolPolicy)) : ToolPolicy :=
  let defined := policies.filterMap id
  let allowLists := defined.filterMap (·.allow)
  let expanded := allowLists.map (expandToolGroups cat)
  let allow : Option (List String) :=
    match expanded with
    | [] => Option.none
    | s :: rest => some (rest.foldl (fun a t => a.filter (fun x => decide (x ∈ t))) s)
  let denyLists := defined.filterMap (·.deny)
  let deny : Option (List String) :=
    match denyLists with
    | [] => Option.none
    | _ :: _ => some (denyLists.flatten.foldl insertUnique [])
  { allow := allow, deny := deny }

theorem mem_foldl_filter_inter {α : Type} [DecidableEq α] :
    ∀ (sets : List (List α)) (s : List α) (x : α),
      x ∈ sets.foldl (fun a t => a.filter (fun y => decide (y ∈ t))) s ↔
        x ∈ s ∧ ∀ t ∈ sets, x ∈ t := by
  intro sets
  induction sets with
  | nil => simp
  | cons t ts ih =>
    intro s x
    rw [List.foldl_cons, ih]
    simp only [List.mem_filter, decide_eq_true_eq, List.forall_mem_cons]
    tauto

theorem mem_foldl_insertUnique :
    ∀ (l acc : List String) (x : String),
      x ∈ l.foldl insertUnique acc ↔ x ∈ acc ∨ x ∈ l := by
  intro l
  induction l with
  | nil => simp
  | cons r rest ih =>
    intro acc x
    rw [List.foldl_cons, ih]
    rw [mem_insertUnique]
    simp only [List.mem_cons]
    tauto

theorem nodup_foldl_insertUnique :
    ∀ (l acc : List String), acc.Nodup → (l.foldl insertUnique acc).Nodup := by
  intro l
  induction l with
  | nil =>
    intro acc h
    exact h
  | cons r rest ih =>
    intro acc h
    rw [List.foldl_cons]
    exact ih _ (insertUnique_nodup h r)

theorem allow_mem_allowLists {policies : List (Option ToolPolicy)} {q : ToolPolicy}
    {l : List String} (hq : some q ∈ policies) (ha : q.allow = some l) :
    l ∈ (policies.filterMap id).filterMap (·.allow) := by
  refine List.mem_filterMap.mpr ⟨q, ?_, ha⟩
  exact List.mem_filterMap.mpr ⟨some q, hq, rfl⟩

end Composer

/-- C1: the composed allow is the set-intersection of the
Reference-Resolver expansions of exactly the defined layers' allow
lists: the allow field is omitted iff no defined layer specifies an
allow; when present, membership in it is membership in every expanded
allow set; an empty input or an all-undefined input composes to the
empty policy; and any one layer with an explicit empty allow forces the
composed allow to be empty. -/
theorem intersectToolPolicies_allow_spec (cat : Catalog) (policies : List (Option ToolPolicy)) :
    ((intersectToolPolicies cat policies).allow = Option.none ↔
      (policies.filterMap id).filterMap (·.allow) = []) ∧
    (∀ res x, (intersectToolPolicies cat policies).allow = some res →
      (x ∈ res ↔ ∀ l ∈ (policies.filterMap id).filterMap (·.allow),
        x ∈ expandToolGroups cat l)) ∧
    intersectToolPolicies cat [] = {} ∧
    ((∀ q ∈ policies, q = Option.none) → intersectToolPolicies cat policies = {}) ∧
    (∀ d, some { allow := some [], deny := d } ∈ policies →
      (intersectToolPolicies cat policies).allow = some []) := by
  refine ⟨?_, ?_, ?_, ?_, ?_⟩
  · simp only [intersectToolPolicies]
    cases h : (policies.filterMap id).filterMap (·.allow) with
    | nil => simp [h]
    | cons a as => simp [h]
  · intro res x hres
    simp only [intersectToolPolicies] at hres
    cases h : (policies.filterMap id).filterMap (·.allow) with
    | nil => simp [h] at hres
    | cons a as =>
      rw [h] at hres
      simp only [List.map_cons, Option.some.injEq] at hres
      subst hres
      rw [mem_foldl_filter_inter]
      simp [List.forall_mem_cons]
  · rfl
  · intro hall
    have h : policies.filterMap id = [] := by
      rw [List.filterMap_eq_nil_iff]
      intro q hq
      rw [hall q hq]
      rfl
    simp [intersectToolPolicies, h]
  · intro d hmem
    have hl : [] ∈ (policies.filterMap id).filterMap (·.allow) :=
      allow_mem_allowLists hmem rfl
    cases h : (policies.filterMap id).filterMap (·.allow) with
    | nil => simp [h] at hl
    | cons a as =>
      simp only [intersectToolPolicies, h, List.map_cons]
      refine congrArg some (List.eq_nil_iff_forall_not_mem.mpr ?_)
      intro x hx
      rw [mem_foldl_filter_inter] at hx
      have hx2 : ∀ t ∈ (a :: as).map (expandToolGroups cat), x ∈ t := by
        intro t ht
        rcases List.mem_map.mp ht with ⟨l, hlmem, rfl⟩
        rcases List.mem_cons.mp hlmem with rfl | hlmem
        · exact hx.1
        · exact hx.2 _ (List.mem_map_of_mem _ hlmem)
      have hempty : x ∈ expandToolGroups cat [] := by
        refine hx2 _ ?_
        rw [h] at hl
        exact List.mem_map_of_mem _ hl
      rw [expandToolGroups, expandGo_nil] at hempty
      exact List.not_mem_nil x hempty

/-- Witness for C1: an all-undefined layer list composes to the empty
policy, and a layer with an explicit empty allow forces the composed
allow to be the empty list even alongside a permissive layer. -/
theorem intersectToolPolicies_allow_spec_witness :
    intersectToolPolicies defaultCatalog [Option.none, Option.none] = {} ∧
    (intersectToolPolicies defaultCatalog
        [some { allow := some [], deny := Option.none },
         some { allow := some ["read"], deny := Option.none }]).allow = some [] := by
  constructor
  · exact (intersectToolPolicies_allow_spec defaultCatalog
      [Option.none, Option.none]).2.2.2.1 (by decide)
  · exact (intersectToolPolicies_allow_spec defaultCatalog
      [some { allow := some [], deny := Option.none },
       some { allow := some ["read"], deny := Option.none }]).2.2.2.2
      Option.none (by decide)

/-- C6: the composed deny is the deduplicated union of the defined
layers' deny lists compared as literal reference strings, never
expanded through the Reference Resolver: the deny field is omitted iff
no defined layer specifies a deny, membership in it is literal
membership in some layer's deny list, and it contains no duplicates. -/
theorem intersectToolPolicies_deny_spec (cat : Catalog) (policies : List (Option ToolPolicy)) :
    ((intersectToolPolicies cat policies).deny = Option.none ↔
      (policies.filterMap id).filterMap (·.deny) = []) ∧
    (∀ res x, (intersectToolPolicies cat policies).deny = some res →
      (x ∈ res ↔ ∃ l ∈ (policies.filterMap id).filterMap (·.deny), x ∈ l)) ∧
    (∀ res, (intersectToolPolicies cat policies).deny = some res → res.Nodup) := by
  refine ⟨?_, ?_, ?_⟩
  · simp only [intersectToolPolicies]
    cases h : (policies.filterMap id).filterMap (·.deny) with
    | nil => simp [h]
    | cons a as => simp [h]
  · intro res x hres
    simp only [intersectToolPolicies] at hres
    cases h : (policies.filterMap id).filterMap (·.deny) with
    | nil => simp [h] at hres
    | cons a as =>
      rw [h] at hres
      simp only [Option.some.injEq] at hres
      subst hres
      rw [mem_foldl_insertUnique]
      simp [List.mem_flatten, h]
  · intro res hres
    simp only [intersectToolPolicies] at hres
    cases h : (policies.filterMap id).filterMap (·.deny) with
    | nil => simp [h] at hres
    | cons a as =>
      rw [h] at hres
      simp only [Option.some.injEq] at hres
      subst hres
      exact nodup_foldl_insertUnique _ [] List.nodup_nil

/-- Witness for C6: two overlapping deny lists, one containing a group
reference, union to a deduplicated literal list in which the group
reference survives unexpanded. -/
theorem intersectToolPolicies_deny_spec_witness :
    (intersectToolPolicies defaultCatalog
        [some { allow := Option.none, deny := some ["exec", "group:fs"] },
         some { allow := Option.none, deny := some ["exec", "deploy"] }]).deny =
      some ["exec", "group:fs", "deploy"] ∧
    (["exec", "group:fs", "deploy"] : List String).Nodup := by
  have hres : (intersectToolPolicies defaultCatalog
      [some { allow := Option.none, deny := some ["exec", "group:fs"] },
       some { allow := Option.none, deny := some ["exec", "deploy"] }]).deny =
      some ["exec", "group:fs", "deploy"] := by decide
  refine ⟨hres, ?_⟩
  exact (intersectToolPolicies_deny_spec defaultCatalog
      [some { allow := Option.none, deny := some ["exec", "group:fs"] },
       some { allow := Option.none, deny := some ["exec", "deploy"] }]).2.2 _ hres

section Permissions

/-- Word character of the JavaScript regex class `\w`. -/
def wordChar (c : Char) : Bool :=
  ('a' ≤ c && c ≤ 'z') || ('A' ≤ c && c ≤ 'Z') || ('0' ≤ c && c ≤ '9') || c == '_'

/-- Split a character list at a separator, modelling split on a
one-character string (an empty input yields one empty field). -/
def splitOnChar (sep : Char) : List Char → List (List Char)
  | [] => [[]]
  | c :: rest =>
    if c = sep then [] :: splitOnChar sep rest
    else
      match splitOnChar sep rest with
      | [] => [[c]]
      | h :: t => (c :: h) :: t

/-- Join line fragments with newlines, modelling join on a newline. -/
def joinNL : List (List Char) → List Char
  | [] => []
  | [l] => l
  | l :: rest => l ++ '\n' :: joinNL rest

/-- Embedding of the heading test of extractPermissionsSection in
frontmatter.ts: the trimmed line is a double hash, whitespace, and the
word permissions case-insensitively up to the end of the line. -/
def isPermissionsHeading (line : List Char) : Bool :=
  match jsTrimL line with
  | '#' :: '#' :: c :: rest =>
    jsWhitespace c && (jsToLowerL (rest.dropWhile jsWhitespace) == ("permissions".data))
  | _ => false

/-- Embedding of the section-boundary test of frontmatter.ts: a line
starting with a double hash followed by whitespace. -/
def isSectionBoundary (line : List Char) : Bool :=
  match line with
  | '#' :: '#' :: c :: _ => jsWhitespace c
  | _ => false

/-- Lines strictly between the first Permissions heading and the next
section heading (or end of input); none when there is no heading. -/
def sectionLinesAfterHeading : List (List Char) → Option (List (List Char))
  | [] => Option.none
  | l :: rest =>
    if isPermissionsHeading l then some (rest.takeWhile (fun x => !isSectionBoundary x))
    else sectionLinesAfterHeading rest

/-- Embedding of extractPermissionsSection from frontmatter.ts: the
joined and trimmed section body, or none when the heading is absent or
the body is empty. -/
def extractPermissionsSection (content : String) : Option String :=
  match sectionLinesAfterHeading (splitOnChar '\n' content.data) with
  | Option.none => Option.none
  | some lines =>
    let sec := jsTrimL (joinNL lines)
    if sec = [] then Option.none else some (String.mk sec)

/-- Embedding of the top-level key regex of parseSkillPermissions: a
word-char-initial key of word chars and hyphens, a colon, and the rest
of the line as the raw value. -/
def matchKeyLine : List Char → Option (List Char × List Char)
  | [] => Option.none
  | c :: rest =>
    if wordChar c then
      match rest.dropWhile (fun d => wordChar d || d == '-') with
      | ':' :: value => some (c :: rest.takeWhile (fun d => wordChar d || d == '-'), value)
      | _ => Option.none
    else Option.none

/-- Embedding of the indented sub-key regex of parseSkillPermissions:
leading whitespace, the literal key allow or deny, a colon, and the
rest of the line as the raw value. -/
def matchSubKeyLine (line : List Char) : Option (Bool × List Char) :=
  match line with
  | c :: _ =>
    if jsWhitespace c then
      match line.dropWhile jsWhitespace with
      | 'a' :: 'l' :: 'l' :: 'o' :: 'w' :: ':' :: value => some (true, value)
      | 'd' :: 'e' :: 'n' :: 'y' :: ':' :: value => some (false, value)
      | _ => Option.none
    else Option.none
  | [] => Option.none

/-- Embedding of parseBracketList from frontmatter.ts: parse a
bracket-delimited comma list into trimmed non-empty entries, or none
when the input is not a bracket list or is empty. -/
def parseBracketList (raw : List Char) : Option (List String) :=
  match jsTrimL raw with
  | '[' :: rest =>
    if rest.getLast? = some ']' then
      let inner := jsTrimL rest.dropLast
      if inner = [] then Option.none
      else
        some (((splitOnChar ',' inner).map jsTrimL).filterMap
          (fun p => if p = [] then Option.none else some (String.mk p)))
    else Option.none
  | _ => Option.none

/-- Valid scope strings of frontmatter.ts. -/
def VALID_SCOPES : List String :=
  ["conversation-only", "read-only", "workspace", "read-write", "full", "custom"]

/-- Valid delegation strings of frontmatter.ts. -/
def VALID_DELEGATION : List String :=
  ["opus", "none", "any"]

/-- Valid external-access strings of frontmatter.ts. -/
def VALID_EXTERNAL : List String :=
  ["none", "read", "full"]

/-- Parsed permissions with string-typed enum fields, as produced by
the frontmatter parser before the engine consumes them. -/
structure ParsedSkillPermissions where
  scope : String
  delegation : String
  external : String
  tools : Option SkillTools := Option.none
deriving DecidableEq, Repr

/-- Default permissions returned for documents without a Permissions
section. -/
def DEFAULT_SKILL_PERMISSIONS : ParsedSkillPermissions :=
  { scope := "conversation-only", delegation := "opus", external := "none",
    tools := Option.none }

/-- Accumulator state of the parseSkillPermissions line loop. -/
structure PermAcc where
  scope : String := "conversation-only"
  delegation : String := "opus"
  external : String := "none"
  toolsAllow : Option (List String) := Option.none
  toolsDeny : Option (List String) := Option.none
deriving DecidableEq, Repr

/-- Update of the accumulator for one recognized top-level key: scope,
delegation and external values are admitted only from the valid sets,
anything else falls back to the safe default; unknown keys are
ignored. -/
def applyKeyValue (acc : PermAcc) (k n : String) : PermAcc :=
  if k = "scope" then
    { acc with scope := if n ∈ VALID_SCOPES then n else "conversation-only" }
  else if k = "delegation" then
    { acc with delegation := if n ∈ VALID_DELEGATION then n else "opus" }
  else if k = "external" then
    { acc with external := if n ∈ VALID_EXTERNAL then n else "none" }
  else acc

/-- Update of the accumulator for an indented allow or deny sub-key:
a parsed bracket list replaces the corresponding tools list, anything
else leaves the accumulator unchanged. -/
def applySubKey (acc : PermAcc) (isAllow : Bool) (rawValue : List Char) : PermAcc :=
  match parseBracketList (jsTrimL rawValue) with
  | some list =>
    if isAllow then { acc with toolsAllow := some list }
    else { acc with toolsDeny := some list }
  | Option.none => acc

/-- Embedding of one iteration of the parseSkillPermissions line loop:
a top-level key line updates scope, delegation or external with
fallback to the safe default on invalid values; otherwise an indented
allow or deny sub-key with a bracket list updates the tools lists. -/
def processPermLine (acc : PermAcc) (line : List Char) : PermAcc :=
  match matchKeyLine line with
  | some (key, rawValue) =>
    applyKeyValue acc (String.mk (jsToLowerL key)) (String.mk (jsToLowerL (jsTrimL rawValue)))
  | Option.none =>
    match matchSubKeyLine line with
    | some (isAllow, rawValue) => applySubKey acc isAllow rawValue
    | Option.none => acc

/-- Embedding of parseSkillPermissions from frontmatter.ts: a document
without a Permissions section yields the defaults; otherwise the
section's lines are folded through the line loop and the tools block is
assembled only when an allow or deny list was parsed. -/
def parseSkillPermissions (content : String) : ParsedSkillPermissions :=
  match extractPermissionsSection content with
  | Option.none => DEFAULT_SKILL_PERMISSIONS
  | some sec =>
    let acc := (splitOnChar '\n' sec.data).foldl processPermLine {}
    { scope := acc.scope, delegation := acc.delegation, external := acc.external,
      tools :=
        if acc.toolsAllow ≠ Option.none ∨ acc.toolsDeny ≠ Option.none then
          some { allow := acc.toolsAllow, deny := acc.toolsDeny }
        else Option.none }

/-- Validity of the enum fields of the accumulator. -/
def ValidAcc (a : PermAcc) : Prop :=
  a.scope ∈ VALID_SCOPES ∧ a.delegation ∈ VALID_DELEGATION ∧ a.external ∈ VALID_EXTERNAL

theorem applyKeyValue_valid {a : PermAcc} (h : ValidAcc a) (k n : String) :
    ValidAcc (applyKeyValue a k n) := by
  obtain ⟨h1, h2, h3⟩ := h
  unfold applyKeyValue
  split_ifs <;>
    refine ⟨?_, ?_, ?_⟩ <;>
    first
      | assumption
      | exact (by decide : ("conversation-only" : String) ∈ VALID_SCOPES)
      | exact (by decide : ("opus" : String) ∈ VALID_DELEGATION)
      | exact (by decide : ("none" : String) ∈ VALID_EXTERNAL)

theorem applySubKey_valid {a : PermAcc} (h : ValidAcc a) (b : Bool) (v : List Char) :
    ValidAcc (applySubKey a b v) := by
  obtain ⟨h1, h2, h3⟩ := h
  unfold applySubKey
  cases hb : parseBracketList (jsTrimL v) with
  | none => exact ⟨h1, h2, h3⟩
  | some list => cases b <;> exact ⟨h1, h2, h3⟩

theorem processPermLine_valid {a : PermAcc} (h : ValidAcc a) (line : List Char) :
    ValidAcc (processPermLine a line) := by
  cases hk : matchKeyLine line with
  | some p =>
    obtain ⟨key, rawValue⟩ := p
    have he : processPermLine a line =
        applyKeyValue a (String.mk (jsToLowerL key))
          (String.mk (jsToLowerL (jsTrimL rawValue))) := by
      unfold processPermLine
      rw [hk]
    rw [he]
    exact applyKeyValue_valid h _ _
  | none =>
    cases hs : matchSubKeyLine line with
    | none =>
      have he : processPermLine a line = a := by
        unfold processPermLine
        rw [hk, hs]
      rw [he]
      exact h
    | some p =>
      obtain ⟨isAllow, rawValue⟩ := p
      have he : processPermLine a line = applySubKey a isAllow rawValue := by
        unfold processPermLine
        rw [hk, hs]
      rw [he]
      exact applySubKey_valid h _ _

theorem foldl_processPermLine_valid :
    ∀ (ls : List (List Char)) (a : PermAcc), ValidAcc a →
      ValidAcc (ls.foldl processPermLine a) := by
  intro ls
  induction ls with
  | nil =>
    intro a h
    exact h
  | cons l rest ih =>
    intro a h
    rw [List.foldl_cons]
    exact ih _ (processPermLine_valid h l)

end Permissions

/-- C9: the permission parser is total and always produces valid enum
fields — scope among the six valid scopes (invalid values fall back to
conversation-only), delegation among opus, none, any (fallback opus),
external among none, read, full (fallback none) — and a document with
no Permissions section yields exactly the default conversation-only,
opus, none permissions with no tools block. -/
theorem parseSkillPermissions_spec (content : String) :
    (parseSkillPermissions content).scope ∈ VALID_SCOPES ∧
    (parseSkillPermissions content).delegation ∈ VALID_DELEGATION ∧
    (parseSkillPermissions content).external ∈ VALID_EXTERNAL ∧
    (extractPermissionsSection content = Option.none →
      parseSkillPermissions content = DEFAULT_SKILL_PERMISSIONS) := by
  cases h : extractPermissionsSection content with
  | none =>
    have he : parseSkillPermissions content = DEFAULT_SKILL_PERMISSIONS := by
      unfold parseSkillPermissions
      rw [h]
    rw [he]
    exact ⟨by decide, by decide, by decide, fun _ => rfl⟩
  | some sec =>
    have hv : ValidAcc ((splitOnChar '\n' sec.data).foldl processPermLine {}) :=
      foldl_processPermLine_valid _ _ ⟨by decide, by decide, by decide⟩
    have he : parseSkillPermissions content =
        { scope := ((splitOnChar '\n' sec.data).foldl processPermLine {}).scope,
          delegation := ((splitOnChar '\n' sec.data).foldl processPermLine {}).delegation,
          external := ((splitOnChar '\n' sec.data).foldl processPermLine {}).external,
          tools :=
            if ((splitOnChar '\n' sec.data).foldl processPermLine {}).toolsAllow ≠ Option.none ∨
                ((splitOnChar '\n' sec.data).foldl processPermLine {}).toolsDeny ≠ Option.none then
              some { allow := ((splitOnChar '\n' sec.data).foldl processPermLine {}).toolsAllow,
                     deny := ((splitOnChar '\n' sec.data).foldl processPermLine {}).toolsDeny }
            else Option.none } := by
      unfold parseSkillPermissions
      rw [h]
    rw [he]
    exact ⟨hv.1, hv.2.1, hv.2.2, fun hc => Option.noConfusion hc⟩

/-- Witness for C9: a document with no Permissions section parses to
the exact defaults via the theorem, a section with an invalid scope
value falls back to conversation-only, an invalid delegation falls
back to opus, and an invalid external falls back to none. -/
theorem parseSkillPermissions_spec_witness :
    parseSkillPermissions ("# Test Skill\n\nSome content here.\n") =
      DEFAULT_SKILL_PERMISSIONS ∧
    (parseSkillPermissions ("## Permissions\n\nscope: bogus-scope\ndelegation: invalid\nexternal: invalid\n")).scope =
      "conversation-only" ∧
    (parseSkillPermissions ("## Permissions\n\nscope: bogus-scope\ndelegation: invalid\nexternal: invalid\n")).delegation =
      "opus" ∧
    (parseSkillPermissions ("## Permissions\n\nscope: bogus-scope\ndelegation: invalid\nexternal: invalid\n")).external =
      "none" := by
  refine ⟨?_, ?_, ?_, ?_⟩
  · exact (parseSkillPermissions_spec ("# Test Skill\n\nSome content here.\n")).2.2.2
      (by decide)
  · decide
  · decide
  · decide

end OpenClaw
